import Mathlib

/-!
# Verification of the bril CFG builder (`mycfg.py`)

Shallow embedding of `src/mycfg/mycfg.py`.

Instructions in the source are Python dicts; an instruction may carry an
`op` field, a `label` field, and a `labels` field (the jump targets).  We
model a dict as a structure with optional `op` and `label` fields and a
`labels` list (a missing `labels` key and an empty target list are
indistinguishable here: in the source both raise on `labels[0]`, which we
model as `none`, and the `br` list comprehension treats both as empty).

Identities (keys of the ordered map) are Python tuples of strings,
modelled as `List String`.  The ordered dict is modelled as an
association list with in-place value update on an existing key, which is
exactly `OrderedDict.__setitem__` semantics.  A `dict` value of `None`
(what the unguarded `get_label_alias` lookup returns on a miss) is
modelled as `none : Option (List String)` inside successor lists.

Exceptions (`IndexError` on `block[-1]` / `labels[0]` for an empty list)
surface as an `Option`-typed result: `none` means the Python code raises.
-/

set_option autoImplicit false

namespace Mycfg

/-- One instruction: a Python dict with optional `op`, optional `label`,
and a `labels` list of jump-target names. -/
structure Instr where
  op : Option String := none
  label : Option String := none
  labels : List String := []
deriving DecidableEq, Repr

/-- The constant `TERMINATOR_OPS = ('jmp', 'br', 'ret')` from the source. -/
def TERMINATOR_OPS : List String := ["jmp", "br", "ret"]

/-- An instruction that is exactly one of the two shapes of the data
model: an Operation (has an opcode, no label) or a Label marker (has a
label, no opcode) — never both, never neither. -/
def shaped (i : Instr) : Bool :=
  (i.op.isSome && i.label.isNone) || (i.op.isNone && i.label.isSome)

/-- A pure Label marker: carries a label and no opcode. -/
def isLabelMarker (i : Instr) : Bool :=
  i.op.isNone && i.label.isSome

/-- A label-marker instruction `{label: l}`. -/
def labelInstr (l : String) : Instr := { label := some l }

/-- An operation instruction `{op: o}` with no jump targets. -/
def opInstr (o : String) : Instr := { op := some o }

/-- An operation instruction `{op: o, labels: ts}`. -/
def opInstrT (o : String) (ts : List String) : Instr := { op := some o, labels := ts }

/-- The loop of `get_basic_blocks`: first argument is the accumulator
`block`, second the remaining instructions.  Mirrors the two successive
(non-exclusive) `if 'op' in instr` / `if 'label' in instr` tests of the
source, including the behaviour on instructions carrying both fields. -/
def gbbAux : List Instr → List Instr → List (List Instr)
  | block, [] => if block = [] then [] else [block]
  | block, i :: rest =>
    match i.op, i.label with
    | some o, none =>
      if o ∈ TERMINATOR_OPS then (block ++ [i]) :: gbbAux [] rest
      else gbbAux (block ++ [i]) rest
    | some _, some _ =>
      -- the op branch appends `i` (closing on a terminator), then the
      -- label branch closes the still-pending block and restarts at `i`;
      -- either way the closed block is `block ++ [i]` and the new
      -- accumulator is `[i]`
      (block ++ [i]) :: gbbAux [i] rest
    | none, some _ =>
      if block = [] then gbbAux [i] rest else block :: gbbAux [i] rest
    | none, none => gbbAux block rest

/-- Function `get_basic_blocks` from the source. -/
def get_basic_blocks (instructions : List Instr) : List (List Instr) :=
  gbbAux [] instructions

/-- Assignment `m[k] = v` on a Python (ordered) dict modelled as an
association list: update the value in place if the key is present,
append a new entry otherwise. -/
def odInsert {α : Type} (m : List (List String × α)) (k : List String) (v : α) :
    List (List String × α) :=
  match m with
  | [] => [(k, v)]
  | (k', v') :: rest => if k' = k then (k', v) :: rest else (k', v') :: odInsert rest k v

/-- The loop of `labels2blocks`: arguments are the map built so far, the
`unlabeled_index` counter, the `carry_list` of pending aliases, and the
remaining blocks.  `none` models the `IndexError` the source raises on
`block[0]` for an empty block. -/
def labels2blocksAux :
    List (List String × List Instr) → Nat → List String → List (List Instr) →
      Option (List (List String × List Instr))
  | m, _, _, [] => some m
  | m, idx, carry, block :: rest =>
    match block with
    | [] => none
    | first :: tl =>
      match first.label with
      | some l =>
        if tl = [] then labels2blocksAux m idx (carry ++ [l]) rest
        else labels2blocksAux (odInsert m (carry ++ [l]) tl) idx [] rest
      | none =>
        labels2blocksAux (odInsert m (carry ++ ["block" ++ toString idx]) block)
          (idx + 1) [] rest

/-- Function `labels2blocks` from the source. -/
def labels2blocks (basic_blocks : List (List Instr)) :
    Option (List (List String × List Instr)) :=
  labels2blocksAux [] 0 [] basic_blocks

/-- Function `get_label_alias` from the source: scan the keys in order for one
containing `label`; falling off the loop returns Python `None`, i.e.
`none`. -/
def get_label_alias (label_block_map : List (List String × List Instr)) (label : String) :
    Option (List String) :=
  match label_block_map with
  | [] => none
  | (k, _) :: rest => if label ∈ k then some k else get_label_alias rest label

/-- The successor list the fall-through arm of `create_cfg` computes for
the entry at position `i`: the key at `i + 1` when in range, else
`('TERM',)`. -/
def fallDest (m : List (List String × List Instr)) (i : Nat) : List (Option (List String)) :=
  match m[i + 1]? with
  | some e => [some e.1]
  | none => [some ["TERM"]]

/-- The successor list `create_cfg` computes for one map entry: `none`
(the outer `Option`) models the `IndexError` on `block[-1]` for an empty
body or on `labels[0]` for a jump with no target. -/
def destOf (m : List (List String × List Instr)) (i : Nat) (block : List Instr) :
    Option (List (Option (List String))) :=
  match block.getLast? with
  | none => none
  | some last =>
    match last.op with
    | some o =>
      if o = "jmp" then
        match last.labels with
        | [] => none
        | t :: _ => some [get_label_alias m t]
      else if o = "br" then some (last.labels.map (get_label_alias m))
      else if o = "ret" then some [some ["TERM"]]
      else some (fallDest m i)
    | none => some (fallDest m i)

/-- The loop of `create_cfg`: `m` is the full map (needed for alias
lookups and fall-through keys), `i` the position of the first entry of
`rest` within `m`, `cfg` the graph built so far. -/
def createCfgAux (m : List (List String × List Instr)) :
    Nat → List (List String × List Instr) →
      List (List String × List (Option (List String))) →
      Option (List (List String × List (Option (List String))))
  | _, [], cfg => some cfg
  | i, (label, block) :: rest, cfg =>
    match destOf m i block with
    | none => none
    | some dest => createCfgAux m (i + 1) rest (odInsert cfg label dest)

/-- Function `create_cfg` from the source: seed the graph with the `START` entry
(first key of the map, or `('TERM',)` for an empty map), then process
every entry in order. -/
def create_cfg (label_block_map : List (List String × List Instr)) :
    Option (List (List String × List (Option (List String)))) :=
  createCfgAux label_block_map 0 label_block_map
    [(["START"],
      [some (match label_block_map with
             | [] => ["TERM"]
             | e :: _ => e.1)])]

/-- Plain association-list lookup (Python dict read `cfg[label]`). -/
def odLookup {α : Type} (m : List (List String × α)) (k : List String) : Option α :=
  match m with
  | [] => none
  | (k', v) :: rest => if k' = k then some v else odLookup rest k

/-- Number of keys of the ordered map whose alias tuple contains `l`. -/
def kcount (m : List (List String × List Instr)) (l : String) : Nat :=
  m.countP (fun e => decide (l ∈ e.1))

/-- The opcode of the last instruction of a body, when both exist. -/
def lastOp (b : List Instr) : Option String :=
  match b.getLast? with
  | none => none
  | some last => last.op

/-- The body ends in a terminator operation. -/
def isTermLast (b : List Instr) : Bool :=
  match lastOp b with
  | some o => decide (o ∈ TERMINATOR_OPS)
  | none => false

/-- The jump targets read by `create_cfg` from a body: the `labels` of a
final `jmp` or `br` instruction. -/
def jumpTargets (b : List Instr) : List String :=
  match b.getLast? with
  | none => []
  | some last =>
    match last.op with
    | some o => if o = "jmp" then last.labels else if o = "br" then last.labels else []
    | none => []

/-- Well-shaped map entry (data-model shapes §3): non-empty body, a final
`jmp` carries exactly one target, a final `br` exactly two. -/
def entryWF (e : List String × List Instr) : Bool :=
  match e.2.getLast? with
  | none => false
  | some last =>
    match last.op with
    | some o =>
      if o = "jmp" then decide (last.labels.length = 1)
      else if o = "br" then decide (last.labels.length = 2)
      else true
    | none => true

section OdLemmas

variable {α : Type}

theorem odLookup_odInsert_self (m : List (List String × α)) (k : List String) (v : α) :
    odLookup (odInsert m k v) k = some v := by
  induction m with
  | nil => simp [odInsert, odLookup]
  | cons e rest ih =>
    obtain ⟨k', v'⟩ := e
    by_cases h : k' = k <;> simp [odInsert, odLookup, h, ih]

theorem odLookup_odInsert_ne (m : List (List String × α)) (k k' : List String) (v : α)
    (h : k' ≠ k) : odLookup (odInsert m k v) k' = odLookup m k' := by
  have hne : k ≠ k' := Ne.symm h
  induction m with
  | nil => simp [odInsert, odLookup, hne]
  | cons e rest ih =>
    obtain ⟨k₀, v₀⟩ := e
    by_cases h₀ : k₀ = k
    · subst h₀
      simp [odInsert, odLookup, hne]
    · by_cases h₁ : k₀ = k' <;> simp [odInsert, odLookup, h₀, h₁, h, ih]

theorem odInsert_forall (m : List (List String × α)) (k : List String) (v : α)
    (P : α → Prop) (hm : ∀ p ∈ m, P p.2) (hv : P v) :
    ∀ p ∈ odInsert m k v, P p.2 := by
  induction m with
  | nil =>
    intro p hp
    simp only [odInsert, List.mem_singleton] at hp
    subst hp; exact hv
  | cons e rest ih =>
    obtain ⟨k₀, v₀⟩ := e
    intro p hp
    by_cases h₀ : k₀ = k
    · simp only [odInsert, if_pos h₀] at hp
      rcases List.mem_cons.mp hp with hp | hp
      · subst hp; exact hv
      · exact hm _ (List.mem_cons_of_mem _ hp)
    · simp only [odInsert, if_neg h₀] at hp
      rcases List.mem_cons.mp hp with hp | hp
      · subst hp; exact hm _ (List.mem_cons_self _ _)
      · exact ih (fun q hq => hm _ (List.mem_cons_of_mem _ hq)) _ hp

end OdLemmas

theorem kcount_odInsert_not_mem (m : List (List String × List Instr)) (k : List String)
    (v : List Instr) (l : String) (h : l ∉ k) :
    kcount (odInsert m k v) l = kcount m l := by
  induction m with
  | nil => simp [odInsert, kcount, List.countP_cons, h]
  | cons e rest ih =>
    obtain ⟨k₀, v₀⟩ := e
    by_cases h₀ : k₀ = k
    · subst h₀
      simp [odInsert, kcount, List.countP_cons]
    · simp only [odInsert, if_neg h₀]
      simp only [kcount, List.countP_cons] at ih ⊢
      omega

theorem kcount_odInsert_mem (m : List (List String × List Instr)) (k : List String)
    (v : List Instr) (l : String) (hk : l ∈ k) (h0 : kcount m l = 0) :
    kcount (odInsert m k v) l = 1 := by
  induction m with
  | nil => simp [odInsert, kcount, List.countP_cons, hk]
  | cons e rest ih =>
    obtain ⟨k₀, v₀⟩ := e
    simp only [kcount, List.countP_cons] at h0
    by_cases hlk : l ∈ k₀
    · simp [hlk] at h0
    · have h0' : kcount rest l = 0 := by
        simp only [kcount]
        simpa [hlk] using h0
      by_cases h₀ : k₀ = k
      · exact absurd (by rw [h₀]; exact hk) hlk
      · simp only [odInsert, if_neg h₀, kcount, List.countP_cons]
        have := ih h0'
        simp only [kcount] at this
        rw [this]
        simp [hlk]

section CfgLemmas

/-- Processing entries never changes the graph at a key that is not one
of the processed entries' keys. -/
theorem createCfgAux_lookup_not_mem (m : List (List String × List Instr)) :
    ∀ (rest : List (List String × List Instr)) (i : Nat)
      (cfg cfg' : List (List String × List (Option (List String)))),
      createCfgAux m i rest cfg = some cfg' →
      ∀ k, k ∉ rest.map Prod.fst → odLookup cfg' k = odLookup cfg k
  | [], _, _, _, h, _, _ => by
    simp only [createCfgAux] at h
    cases h; rfl
  | (lab, blk) :: rest, i, cfg, cfg', h, k, hk => by
    simp only [createCfgAux] at h
    cases hd : destOf m i blk with
    | none => rw [hd] at h; cases h
    | some d =>
      rw [hd] at h
      have hk' : k ∉ rest.map Prod.fst := by
        intro hmem
        exact hk (by simp [hmem])
      have hkl : k ≠ lab := by
        intro hEq
        exact hk (by simp [hEq])
      rw [createCfgAux_lookup_not_mem m rest (i + 1) _ _ h k hk']
      exact odLookup_odInsert_ne cfg lab k d hkl

/-- Master lemma: after successfully processing the entries `rest`
(sitting at positions `i, i+1, …` of `m`) over an accumulated graph, the
final graph maps each processed key to exactly the successor list
`destOf` computes for its position.  Requires the processed keys to be
distinct (they are, coming from a Python dict). -/
theorem createCfgAux_lookup (m : List (List String × List Instr)) :
    ∀ (rest : List (List String × List Instr)) (i : Nat)
      (cfg cfg' : List (List String × List (Option (List String)))),
      (rest.map Prod.fst).Nodup →
      createCfgAux m i rest cfg = some cfg' →
      ∀ (r : Nat) (lab : List String) (blk : List Instr),
        rest[r]? = some (lab, blk) →
        odLookup cfg' lab = destOf m (i + r) blk
  | [], _, _, _, _, _, r, _, _, hr => by cases r <;> simp at hr
  | (lab₀, blk₀) :: rest, i, cfg, cfg', hnd, h, r, lab, blk, hr => by
    simp only [createCfgAux] at h
    cases hd : destOf m i blk₀ with
    | none => rw [hd] at h; cases h
    | some d =>
      rw [hd] at h
      simp only [List.map_cons, List.nodup_cons] at hnd
      cases r with
      | zero =>
        simp only [List.getElem?_cons_zero, Option.some.injEq] at hr
        cases hr
        rw [createCfgAux_lookup_not_mem m rest (i + 1) _ _ h lab₀ hnd.1]
        rw [odLookup_odInsert_self cfg lab₀ d, Nat.add_zero, hd]
      | succ r' =>
        simp only [List.getElem?_cons_succ] at hr
        have := createCfgAux_lookup m rest (i + 1) _ _ hnd.2 h r' lab blk hr
        rw [this]
        congr 1
        omega

/-- Every successor list a successful run of `createCfgAux` stores
satisfies any property that all computed `destOf` lists satisfy. -/
theorem createCfgAux_forall (m : List (List String × List Instr))
    (P : List (Option (List String)) → Prop) :
    ∀ (rest : List (List String × List Instr)) (i : Nat)
      (cfg cfg' : List (List String × List (Option (List String)))),
      (∀ p ∈ cfg, P p.2) →
      (∀ e ∈ rest, ∀ (j : Nat) (d : List (Option (List String))),
        destOf m j e.2 = some d → P d) →
      createCfgAux m i rest cfg = some cfg' →
      ∀ p ∈ cfg', P p.2
  | [], _, _, _, hcfg, _, h => by
    simp only [createCfgAux] at h
    cases h; exact hcfg
  | (lab₀, blk₀) :: rest, i, cfg, cfg', hcfg, hrest, h => by
    simp only [createCfgAux] at h
    cases hd : destOf m i blk₀ with
    | none => rw [hd] at h; cases h
    | some d =>
      rw [hd] at h
      have hd' : P d := hrest (lab₀, blk₀) (List.mem_cons_self _ _) i d hd
      exact createCfgAux_forall m P rest (i + 1) _ _
        (odInsert_forall cfg lab₀ d P hcfg hd')
        (fun e he j dd hdd => hrest e (List.mem_cons_of_mem _ he) j dd hdd) h

/-- A well-formed entry's successor list always computes. -/
theorem destOf_isSome (m : List (List String × List Instr)) (i : Nat)
    (lab : List String) (blk : List Instr) (hwf : entryWF (lab, blk) = true) :
    ∃ d, destOf m i blk = some d := by
  cases hl : blk.getLast? with
  | none => simp [entryWF, hl] at hwf
  | some last =>
    cases ho : last.op with
    | none => exact ⟨fallDest m i, by simp [destOf, hl, ho]⟩
    | some o =>
      have hwf' : (if o = "jmp" then decide (last.labels.length = 1)
          else if o = "br" then decide (last.labels.length = 2) else true) = true := by
        simpa [entryWF, hl, ho] using hwf
      by_cases hj : o = "jmp"
      · rw [if_pos hj] at hwf'
        cases hlab : last.labels with
        | nil => rw [hlab] at hwf'; simp at hwf'
        | cons t ts => exact ⟨[get_label_alias m t], by simp [destOf, hl, ho, hj, hlab]⟩
      · by_cases hb : o = "br"
        · exact ⟨last.labels.map (get_label_alias m), by simp [destOf, hl, ho, hj, hb]⟩
        · by_cases hr : o = "ret"
          · exact ⟨[some ["TERM"]], by simp [destOf, hl, ho, hj, hb, hr]⟩
          · exact ⟨fallDest m i, by simp [destOf, hl, ho, hj, hb, hr]⟩

/-- Under well-formedness, avoiding a crash on every entry, `create_cfg`
succeeds. -/
theorem createCfgAux_isSome (m : List (List String × List Instr)) :
    ∀ (rest : List (List String × List Instr)) (i : Nat)
      (cfg : List (List String × List (Option (List String)))),
      (∀ e ∈ rest, entryWF e = true) →
      ∃ cfg', createCfgAux m i rest cfg = some cfg'
  | [], _, cfg, _ => ⟨cfg, rfl⟩
  | (lab₀, blk₀) :: rest, i, cfg, hwf => by
    obtain ⟨d, hd⟩ :=
      destOf_isSome m i lab₀ blk₀ (hwf (lab₀, blk₀) (List.mem_cons_self _ _))
    simp only [createCfgAux, hd]
    exact createCfgAux_isSome m rest (i + 1) _
      (fun e he => hwf e (List.mem_cons_of_mem _ he))

/-- If processing succeeds, every processed entry's successor list
computed, i.e. no entry crashed. -/
theorem createCfgAux_destOf_isSome (m : List (List String × List Instr)) :
    ∀ (rest : List (List String × List Instr)) (i : Nat)
      (cfg cfg' : List (List String × List (Option (List String)))),
      createCfgAux m i rest cfg = some cfg' →
      ∀ (r : Nat) (lab : List String) (blk : List Instr),
        rest[r]? = some (lab, blk) →
        ∃ d, destOf m (i + r) blk = some d
  | [], _, _, _, _, r, _, _, hr => by cases r <;> simp at hr
  | (lab₀, blk₀) :: rest, i, cfg, cfg', h, r, lab, blk, hr => by
    simp only [createCfgAux] at h
    cases hd : destOf m i blk₀ with
    | none => rw [hd] at h; cases h
    | some d =>
      rw [hd] at h
      cases r with
      | zero =>
        simp only [List.getElem?_cons_zero, Option.some.injEq] at hr
        cases hr
        exact ⟨d, by rw [Nat.add_zero]; exact hd⟩
      | succ r' =>
        simp only [List.getElem?_cons_succ] at hr
        obtain ⟨d', hd'⟩ := createCfgAux_destOf_isSome m rest (i + 1) _ _ h r' lab blk hr
        exact ⟨d', by rw [show i + (r' + 1) = i + 1 + r' by omega]; exact hd'⟩

/-- The fall-through arm always yields exactly one successor. -/
theorem fallDest_length (m : List (List String × List Instr)) (i : Nat) :
    (fallDest m i).length = 1 := by
  cases h : m[i + 1]? <;> simp [fallDest, h]

end CfgLemmas

/-- C1: the claim says an unresolved jump target must make `create_cfg`
fail with an error naming the missing label, never silently producing an
absent successor.  The code does the opposite: on the one-entry map whose
single block jumps to the undefined label `"L"`, `get_label_alias`
returns Python `None` and `create_cfg` happily builds a graph whose
`block0` node has the absent successor `None` — no error is raised. -/
theorem create_cfg_silent_none_on_missing_label :
    get_label_alias [(["block0"], [opInstrT "jmp" ["L"]])] "L" = none ∧
    create_cfg [(["block0"], [opInstrT "jmp" ["L"]])] =
      some [(["START"], [some ["block0"]]), (["block0"], [none])] := by
  exact ⟨rfl, rfl⟩

/-- C3: `START`'s single successor is the first Identity of the ordered
map (or `TERM` for the empty map), provided no block Identity is the
synthetic `('START',)` tuple itself (the spec's §3 reserves `START` and
`TERM` as synthetic, absent from the instruction stream); and the empty
instruction list yields zero blocks, the empty map, and the CFG
`{START: [TERM]}`. -/
theorem start_successor :
    (∀ (m : List (List String × List Instr))
       (cfg : List (List String × List (Option (List String)))),
       ["START"] ∉ m.map Prod.fst → create_cfg m = some cfg →
       odLookup cfg ["START"] =
         some [some (match m with | [] => ["TERM"] | e :: _ => e.1)]) ∧
    (get_basic_blocks ([] : List Instr) = [] ∧
     labels2blocks [] = some [] ∧
     create_cfg [] = some [(["START"], [some ["TERM"]])]) := by
  refine ⟨?_, rfl, rfl, rfl⟩
  intro m cfg hstart hcfg
  unfold create_cfg at hcfg
  rw [createCfgAux_lookup_not_mem m m 0 _ cfg hcfg ["START"] hstart]
  simp [odLookup]

/-- C3 witness: instantiating the first conjunct at the one-entry map
`{(A): [ret]}`. -/
theorem start_successor_witness :
    odLookup [(["START"], [some ["A"]]), (["A"], [some ["TERM"]])] ["START"] =
      some [some ["A"]] := by
  have h := start_successor.1 [(["A"], [opInstr "ret"])]
    [(["START"], [some ["A"]]), (["A"], [some ["TERM"]])] (by decide) (by rfl)
  exact h

/-- C8: a map entry whose body ends in a `ret` operation gets the single
successor `('TERM',)` in the built CFG. -/
theorem ret_block_sole_successor (m : List (List String × List Instr)) (i : Nat)
    (label : List String) (block : List Instr)
    (cfg : List (List String × List (Option (List String))))
    (hnd : (m.map Prod.fst).Nodup)
    (hi : m[i]? = some (label, block))
    (hret : lastOp block = some "ret")
    (hcfg : create_cfg m = some cfg) :
    odLookup cfg label = some [some ["TERM"]] := by
  unfold create_cfg at hcfg
  have hlk := createCfgAux_lookup m m 0 _ cfg hnd hcfg i label block hi
  rw [Nat.zero_add] at hlk
  cases hl : block.getLast? with
  | none => simp [lastOp, hl] at hret
  | some last =>
    have ho : last.op = some "ret" := by simpa [lastOp, hl] using hret
    rw [hlk]
    simp [destOf, hl, ho]

/-- C8 witness. -/
theorem ret_block_sole_successor_witness :
    odLookup [(["START"], [some ["A"]]), (["A"], [some ["TERM"]])] ["A"] =
      some [some ["TERM"]] :=
  ret_block_sole_successor [(["A"], [opInstr "ret"])] 0 ["A"] [opInstr "ret"]
    [(["START"], [some ["A"]]), (["A"], [some ["TERM"]])]
    (by decide) (by rfl) (by rfl) (by rfl)

/-- C7: a map entry whose body does not end in a terminator operation
falls through: its sole successor is the key at position `i + 1` when in
range, `('TERM',)` otherwise. -/
theorem fallthrough_successor (m : List (List String × List Instr)) (i : Nat)
    (label : List String) (block : List Instr)
    (cfg : List (List String × List (Option (List String))))
    (hnd : (m.map Prod.fst).Nodup)
    (hi : m[i]? = some (label, block))
    (hnt : isTermLast block = false)
    (hcfg : create_cfg m = some cfg) :
    odLookup cfg label =
      some [some (match m[i + 1]? with | some e => e.1 | none => ["TERM"])] := by
  unfold create_cfg at hcfg
  have hsome := createCfgAux_destOf_isSome m m 0 _ cfg hcfg i label block hi
  rw [Nat.zero_add] at hsome
  have hlk := createCfgAux_lookup m m 0 _ cfg hnd hcfg i label block hi
  rw [Nat.zero_add] at hlk
  have hfall : (fallDest m i) =
      [some (match m[i + 1]? with | some e => e.1 | none => ["TERM"])] := by
    cases h : m[i + 1]? <;> simp [fallDest, h]
  cases hl : block.getLast? with
  | none =>
    obtain ⟨d, hd⟩ := hsome
    simp [destOf, hl] at hd
  | some last =>
    cases ho : last.op with
    | none =>
      rw [hlk]
      simp only [destOf, hl, ho]
      rw [hfall]
    | some o =>
      have hterm : ¬ o ∈ TERMINATOR_OPS := by
        simpa [isTermLast, lastOp, hl, ho] using hnt
      have hj : o ≠ "jmp" := by intro h; exact hterm (by simp [TERMINATOR_OPS, h])
      have hb : o ≠ "br" := by intro h; exact hterm (by simp [TERMINATOR_OPS, h])
      have hr : o ≠ "ret" := by intro h; exact hterm (by simp [TERMINATOR_OPS, h])
      rw [hlk]
      simp only [destOf, hl, ho, if_neg hj, if_neg hb, if_neg hr]
      rw [hfall]

/-- Shape of a successfully computed successor list: one or two entries,
two exactly for a final `br`, and for a `br` the list is the alias
lookup of the targets in order. -/
theorem destOf_spec (m : List (List String × List Instr)) (i : Nat)
    (lab : List String) (blk : List Instr) (d : List (Option (List String)))
    (hwf : entryWF (lab, blk) = true) (hd : destOf m i blk = some d) :
    (d.length = 1 ∨ d.length = 2) ∧
    (d.length = 2 ↔ lastOp blk = some "br") ∧
    (lastOp blk = some "br" → d = (jumpTargets blk).map (get_label_alias m)) := by
  cases hl : blk.getLast? with
  | none => simp [destOf, hl] at hd
  | some last =>
    have hlo : lastOp blk = last.op := by simp [lastOp, hl]
    cases ho : last.op with
    | none =>
      have hd' : fallDest m i = d := by simpa [destOf, hl, ho] using hd
      have hlen : d.length = 1 := hd' ▸ fallDest_length m i
      refine ⟨Or.inl hlen, ⟨fun h2 => ?_, fun hbr => ?_⟩, fun hbr => ?_⟩
      · rw [hlen] at h2; cases h2
      · rw [hlo, ho] at hbr; cases hbr
      · rw [hlo, ho] at hbr; cases hbr
    | some o =>
      rw [ho] at hlo
      by_cases hj : o = "jmp"
      · have hwf' : last.labels.length = 1 := by
          simpa [entryWF, hl, ho, hj] using hwf
        obtain ⟨t, hlab⟩ := List.length_eq_one.mp hwf'
        have hd' : ([get_label_alias m t] : List (Option (List String))) = d := by
          simpa [destOf, hl, ho, hj, hlab] using hd
        have hlen : d.length = 1 := by rw [← hd']; rfl
        have hne : lastOp blk ≠ some "br" := by
          rw [hlo, hj]; decide
        refine ⟨Or.inl hlen, ⟨fun h2 => ?_, fun hbr => absurd hbr hne⟩,
          fun hbr => absurd hbr hne⟩
        rw [hlen] at h2; cases h2
      · by_cases hb : o = "br"
        · have hwf' : last.labels.length = 2 := by
            simpa [entryWF, hl, ho, hj, hb] using hwf
          obtain ⟨t₁, t₂, hlab⟩ := List.length_eq_two.mp hwf'
          have hd' : (last.labels.map (get_label_alias m)) = d := by
            simpa [destOf, hl, ho, hj, hb] using hd
          have hlen : d.length = 2 := by rw [← hd', hlab]; rfl
          have htg : jumpTargets blk = last.labels := by
            simp [jumpTargets, hl, ho, hj, hb]
          exact ⟨Or.inr hlen, ⟨fun _ => by rw [hlo, hb], fun _ => hlen⟩,
            fun _ => by rw [htg, hd']⟩
        · have hne : lastOp blk ≠ some "br" := by
            rw [hlo]; intro h; cases h; exact hb rfl
          by_cases hr : o = "ret"
          · have hd' : ([some ["TERM"]] : List (Option (List String))) = d := by
              simpa [destOf, hl, ho, hj, hb, hr] using hd
            have hlen : d.length = 1 := by rw [← hd']; rfl
            refine ⟨Or.inl hlen, ⟨fun h2 => ?_, fun hbr => absurd hbr hne⟩,
              fun hbr => absurd hbr hne⟩
            rw [hlen] at h2; cases h2
          · have hd' : fallDest m i = d := by
              simpa [destOf, hl, ho, hj, hb, hr] using hd
            have hlen : d.length = 1 := hd' ▸ fallDest_length m i
            refine ⟨Or.inl hlen, ⟨fun h2 => ?_, fun hbr => absurd hbr hne⟩,
              fun hbr => absurd hbr hne⟩
            rw [hlen] at h2; cases h2

/-- C2: on a well-formed map all of whose jump targets resolve, every
node of the built CFG has 1 or 2 successors; a map entry has 2 exactly
when its body ends in a `br`, and then the successors are the alias
Identities of the branch's two targets in target order. -/
theorem successor_arity (m : List (List String × List Instr))
    (hnd : (m.map Prod.fst).Nodup)
    (hwf : ∀ e ∈ m, entryWF e = true)
    (hres : ∀ e ∈ m, ∀ t ∈ jumpTargets e.2, (get_label_alias m t).isSome = true) :
    ∃ cfg, create_cfg m = some cfg ∧
      (∀ p ∈ cfg, p.2.length = 1 ∨ p.2.length = 2) ∧
      (∀ (i : Nat) (e : List String × List Instr), m[i]? = some e →
        ∃ succs, odLookup cfg e.1 = some succs ∧
          (succs.length = 2 ↔ lastOp e.2 = some "br") ∧
          (∀ t₁ t₂, lastOp e.2 = some "br" → jumpTargets e.2 = [t₁, t₂] →
            ∃ a₁ a₂, get_label_alias m t₁ = some a₁ ∧ get_label_alias m t₂ = some a₂ ∧
              succs = [some a₁, some a₂])) := by
  have hex : ∃ cfg, create_cfg m = some cfg := by
    unfold create_cfg
    exact createCfgAux_isSome m m 0 _ hwf
  obtain ⟨cfg, hcfg⟩ := hex
  refine ⟨cfg, hcfg, ?_, ?_⟩
  unfold create_cfg at hcfg
  · refine createCfgAux_forall m (fun v => v.length = 1 ∨ v.length = 2) m 0 _ cfg
      (by simp) ?_ hcfg
    intro e he j d hd
    exact (destOf_spec m j e.1 e.2 d (hwf e he) hd).1
  · intro i e hi
    obtain ⟨lab, blk⟩ := e
    have hlk := createCfgAux_lookup m m 0 _ cfg hnd hcfg i lab blk hi
    rw [Nat.zero_add] at hlk
    obtain ⟨d, hd⟩ := createCfgAux_destOf_isSome m m 0 _ cfg hcfg i lab blk hi
    rw [Nat.zero_add] at hd
    have he : (lab, blk) ∈ m := by
      have := List.getElem?_eq_some_iff.mp hi
      obtain ⟨hlt, hget⟩ := this
      exact hget ▸ List.getElem_mem hlt
    obtain ⟨_, hiff, hord⟩ := destOf_spec m i lab blk d (hwf _ he) hd
    refine ⟨d, by rw [hlk, hd], hiff, ?_⟩
    intro t₁ t₂ hbr htg
    have h₁ : (get_label_alias m t₁).isSome = true := by
      refine hres _ he t₁ ?_
      rw [htg]; exact List.mem_cons_self _ _
    have h₂ : (get_label_alias m t₂).isSome = true := by
      refine hres _ he t₂ ?_
      rw [htg]; exact List.mem_cons_of_mem _ (List.mem_cons_self _ _)
    obtain ⟨a₁, ha₁⟩ := Option.isSome_iff_exists.mp h₁
    obtain ⟨a₂, ha₂⟩ := Option.isSome_iff_exists.mp h₂
    refine ⟨a₁, a₂, ha₁, ha₂, ?_⟩
    rw [hord hbr, htg]
    simp [ha₁, ha₂]

/-- C2 witness: Scenario C's map (a `br` block and two `ret` blocks). -/
theorem successor_arity_witness :
    ∃ cfg, create_cfg
        [(["block0"], [opInstrT "br" ["T", "F"]]),
         (["T"], [opInstr "ret"]), (["F"], [opInstr "ret"])] = some cfg ∧
      (∀ p ∈ cfg, p.2.length = 1 ∨ p.2.length = 2) ∧
      (∀ (i : Nat) (e : List String × List Instr),
        [(["block0"], [opInstrT "br" ["T", "F"]]),
         (["T"], [opInstr "ret"]), (["F"], [opInstr "ret"])][i]? = some e →
        ∃ succs,
          odLookup cfg e.1 = some succs ∧
          (succs.length = 2 ↔ lastOp e.2 = some "br") ∧
          (∀ t₁ t₂, lastOp e.2 = some "br" → jumpTargets e.2 = [t₁, t₂] →
            ∃ a₁ a₂,
              get_label_alias
                  [(["block0"], [opInstrT "br" ["T", "F"]]),
                   (["T"], [opInstr "ret"]), (["F"], [opInstr "ret"])] t₁ = some a₁ ∧
              get_label_alias
                  [(["block0"], [opInstrT "br" ["T", "F"]]),
                   (["T"], [opInstr "ret"]), (["F"], [opInstr "ret"])] t₂ = some a₂ ∧
              succs = [some a₁, some a₂])) :=
  successor_arity
    [(["block0"], [opInstrT "br" ["T", "F"]]),
     (["T"], [opInstr "ret"]), (["F"], [opInstr "ret"])]
    (by decide) (by decide) (by decide)

/-- C7 witness: a two-entry map whose first body ends in a non-terminator
operation falls through to the second key. -/
theorem fallthrough_successor_witness :
    odLookup [(["START"], [some ["A"]]), (["A"], [some ["B"]]), (["B"], [some ["TERM"]])]
      ["A"] = some [some ["B"]] :=
  fallthrough_successor [(["A"], [opInstr "const"]), (["B"], [opInstr "ret"])] 0
    ["A"] [opInstr "const"]
    [(["START"], [some ["A"]]), (["A"], [some ["B"]]), (["B"], [some ["TERM"]])]
    (by decide) (by rfl) (by rfl) (by rfl)

section PartitionerLemmas

/-- Appending a non-marker instruction to an accumulator keeps all
markers out of the tail. -/
theorem dropOne_append (block : List Instr) (i : Instr)
    (hP : ∀ j ∈ block.drop 1, isLabelMarker j = false)
    (hi : isLabelMarker i = false) :
    ∀ j ∈ (block ++ [i]).drop 1, isLabelMarker j = false := by
  cases block with
  | nil => simp [hi]
  | cons c cs =>
    intro j hj
    simp only [List.cons_append, List.drop_succ_cons, List.drop_zero] at hj
    rcases List.mem_append.mp hj with hj | hj
    · exact hP j (by simpa using hj)
    · simp only [List.mem_singleton] at hj
      subst hj; exact hi

/-- Invariant of the partitioner loop: provided the accumulator has no
label marker past its head, every emitted block is non-empty and has no
label marker past its head. -/
theorem gbbAux_blocks (instrs : List Instr) :
    ∀ block : List Instr, (∀ j ∈ block.drop 1, isLabelMarker j = false) →
      ∀ b ∈ gbbAux block instrs,
        b ≠ [] ∧ ∀ j ∈ b.drop 1, isLabelMarker j = false := by
  induction instrs with
  | nil =>
    intro block hblk b hb
    by_cases hbe : block = []
    · simp [gbbAux, hbe] at hb
    · simp only [gbbAux, if_neg hbe, List.mem_singleton] at hb
      subst hb; exact ⟨hbe, hblk⟩
  | cons i rest ih =>
    intro block hblk b hb
    cases hop : i.op with
    | some o =>
      have hni : isLabelMarker i = false := by simp [isLabelMarker, hop]
      cases hlb : i.label with
      | none =>
        by_cases ht : o ∈ TERMINATOR_OPS
        · simp only [gbbAux, hop, hlb, if_pos ht, List.mem_cons] at hb
          rcases hb with hb | hb
          · subst hb
            exact ⟨by simp, dropOne_append block i hblk hni⟩
          · exact ih [] (by simp) b hb
        · simp only [gbbAux, hop, hlb, if_neg ht] at hb
          exact ih (block ++ [i]) (dropOne_append block i hblk hni) b hb
      | some l =>
        simp only [gbbAux, hop, hlb, List.mem_cons] at hb
        rcases hb with hb | hb
        · subst hb
          exact ⟨by simp, dropOne_append block i hblk hni⟩
        · exact ih [i] (by simp) b hb
    | none =>
      cases hlb : i.label with
      | some l =>
        by_cases hbe : block = []
        · simp only [gbbAux, hop, hlb, if_pos hbe] at hb
          exact ih [i] (by simp) b hb
        · simp only [gbbAux, hop, hlb, if_neg hbe, List.mem_cons] at hb
          rcases hb with hb | hb
          · subst hb; exact ⟨hbe, hblk⟩
          · exact ih [i] (by simp) b hb
      | none =>
        simp only [gbbAux, hop, hlb] at hb
        exact ih block hblk b hb

/-- Helper shared with the resolver development: on well-shaped input,
the concatenation of the partitioner's blocks is the input stream. -/
theorem gbbAux_flatten (instrs : List Instr) :
    ∀ block : List Instr, (∀ i ∈ instrs, shaped i = true) →
      (gbbAux block instrs).flatten = block ++ instrs := by
  induction instrs with
  | nil =>
    intro block _
    by_cases hb : block = [] <;> simp [gbbAux, hb]
  | cons i rest ih =>
    intro block h
    have hi : shaped i = true := h i (List.mem_cons_self _ _)
    have hrest : ∀ j ∈ rest, shaped j = true :=
      fun j hj => h j (List.mem_cons_of_mem _ hj)
    cases hop : i.op with
    | some o =>
      cases hlb : i.label with
      | none =>
        by_cases ht : o ∈ TERMINATOR_OPS
        · simp [gbbAux, hop, hlb, ht, ih _ hrest]
        · simp [gbbAux, hop, hlb, ht, ih _ hrest]
      | some l => simp [shaped, hop, hlb] at hi
    | none =>
      cases hlb : i.label with
      | some l =>
        by_cases hb : block = []
        · simp [gbbAux, hop, hlb, hb, ih _ hrest]
        · simp [gbbAux, hop, hlb, hb, ih _ hrest]
      | none => simp [shaped, hop, hlb] at hi

end PartitionerLemmas

/-- C9: every block the partitioner produces is non-empty, any Label
marker in a block is its first instruction (no marker past the head),
and a block holds at most one Label marker. -/
theorem partitioner_blocks_wellformed (instrs : List Instr) :
    ∀ b ∈ get_basic_blocks instrs,
      b ≠ [] ∧ (∀ j ∈ b.drop 1, isLabelMarker j = false) ∧
        b.countP isLabelMarker ≤ 1 := by
  intro b hb
  obtain ⟨h1, h2⟩ := gbbAux_blocks instrs [] (by simp) b hb
  refine ⟨h1, h2, ?_⟩
  cases b with
  | nil => simp
  | cons c cs =>
    have hz : cs.countP isLabelMarker = 0 :=
      List.countP_eq_zero.mpr (fun j hj => by simp [h2 j (by simpa using hj)])
    by_cases hc : isLabelMarker c <;> simp [List.countP_cons, hz, hc]

/-- C9 witness: the partitioner on `[const, label L, ret]` emits the
block `[label L, ret]`, which is non-empty, has its marker first and
holds one marker. -/
theorem partitioner_blocks_wellformed_witness :
    ([labelInstr "L", opInstr "ret"] : List Instr) ≠ [] ∧
      (∀ j ∈ ([labelInstr "L", opInstr "ret"] : List Instr).drop 1,
        isLabelMarker j = false) ∧
      ([labelInstr "L", opInstr "ret"] : List Instr).countP isLabelMarker ≤ 1 :=
  partitioner_blocks_wellformed [opInstr "const", labelInstr "L", opInstr "ret"]
    [labelInstr "L", opInstr "ret"] (by decide)

/-- C10: when every instruction is exactly an Operation or exactly a
Label marker, concatenating the partitioner's blocks in order restores
the input stream — nothing lost, duplicated or reordered.  (Without the
shape hypothesis this fails: the source appends an instruction carrying
both fields to two blocks.) -/
theorem partitioner_preserves_instructions (instrs : List Instr)
    (h : ∀ i ∈ instrs, shaped i = true) :
    (get_basic_blocks instrs).flatten = instrs := by
  simpa using gbbAux_flatten instrs [] h

/-- C10 witness. -/
theorem partitioner_preserves_instructions_witness :
    (get_basic_blocks
        [opInstr "const", opInstrT "jmp" ["L"], labelInstr "L", opInstr "ret"]).flatten
      = [opInstr "const", opInstrT "jmp" ["L"], labelInstr "L", opInstr "ret"] :=
  partitioner_preserves_instructions _ (by decide)

section ResolverLemmas

/-- A run of label-only blocks just extends the pending-alias carry. -/
theorem l2bAux_labelRun (ls : List String) :
    ∀ (m : List (List String × List Instr)) (idx : Nat) (carry : List String)
      (rest : List (List Instr)),
      labels2blocksAux m idx carry (ls.map (fun s => [labelInstr s]) ++ rest)
        = labels2blocksAux m idx (carry ++ ls) rest := by
  induction ls with
  | nil => intro m idx carry rest; simp
  | cons s ls ih =>
    intro m idx carry rest
    simp only [List.map_cons, List.cons_append]
    rw [show labels2blocksAux m idx carry
          ([labelInstr s] :: (ls.map (fun s => [labelInstr s]) ++ rest))
        = labels2blocksAux m idx (carry ++ [s])
            (ls.map (fun s => [labelInstr s]) ++ rest) from rfl]
    rw [ih]
    simp

/-- Trailing label-only blocks leave the resolver's result unchanged. -/
theorem l2bAux_trailing (bs : List (List Instr)) :
    ∀ (m : List (List String × List Instr)) (idx : Nat) (carry : List String)
      (ls : List String),
      labels2blocksAux m idx carry (bs ++ ls.map (fun s => [labelInstr s]))
        = labels2blocksAux m idx carry bs := by
  induction bs with
  | nil =>
    intro m idx carry ls
    have h := l2bAux_labelRun ls m idx carry []
    simp only [List.append_nil] at h
    simpa using h
  | cons block bs ih =>
    intro m idx carry ls
    cases block with
    | nil => simp [labels2blocksAux]
    | cons first tl =>
      cases hlb : first.label with
      | some l =>
        by_cases ht : tl = []
        · simp only [List.cons_append, labels2blocksAux, hlb, if_pos ht, List.append_eq]
          exact ih m idx (carry ++ [l]) ls
        · simp only [List.cons_append, labels2blocksAux, hlb, if_neg ht, List.append_eq]
          exact ih _ idx [] ls
      | none =>
        simp only [List.cons_append, labels2blocksAux, hlb, List.append_eq]
        exact ih _ (idx + 1) [] ls

end ResolverLemmas

/-- C4: starting from an empty carry (any map and counter state), a run
of label-only blocks followed by a labeled block with non-empty body
emits exactly one map entry, keyed by the run's labels followed by the
final block's label, holding that block's body; and the claim's example
`[{label:A}, {label:B}, {op:ret}]` resolves to the single entry
`{(A, B): [ret]}`. -/
theorem label_run_single_entry :
    (∀ (m : List (List String × List Instr)) (idx : Nat) (ls : List String)
       (l : String) (body : List Instr) (rest : List (List Instr)),
       ls ≠ [] → body ≠ [] →
       labels2blocksAux m idx []
           (ls.map (fun s => [labelInstr s]) ++ (labelInstr l :: body) :: rest)
         = labels2blocksAux (odInsert m (ls ++ [l]) body) idx [] rest) ∧
    labels2blocks (get_basic_blocks [labelInstr "A", labelInstr "B", opInstr "ret"])
      = some [(["A", "B"], [opInstr "ret"])] := by
  constructor
  · intro m idx ls l body rest _ hbody
    rw [l2bAux_labelRun]
    simp only [List.nil_append]
    cases body with
    | nil => exact absurd rfl hbody
    | cons b bs => rfl
  · rfl

/-- C4 witness: the general statement instantiated at the run `[A]`,
final label `B`, body `[ret]`. -/
theorem label_run_single_entry_witness :
    labels2blocksAux [] 0 []
        ((["A"].map (fun s => [labelInstr s])) ++ (labelInstr "B" :: [opInstr "ret"]) :: [])
      = labels2blocksAux (odInsert [] (["A"] ++ ["B"]) [opInstr "ret"]) 0 [] [] :=
  label_run_single_entry.1 [] 0 ["A"] "B" [opInstr "ret"] [] (by decide) (by decide)

/-- C5 counterexample: in
`[[label A, ret], [label A]]` the second block is a trailing label-only
block, yet its label `A` does occur in an Identity of the returned map
(the Identity `(A,)` emitted for the first block), because the same name
labels an earlier block.  The claim as stated (trailing labels appear in
no Identity) is therefore false. -/
theorem trailing_label_cex :
    labels2blocks [[labelInstr "A", opInstr "ret"], [labelInstr "A"]]
        = some [(["A"], [opInstr "ret"])] ∧
      kcount [(["A"], [opInstr "ret"])] "A" = 1 := ⟨rfl, rfl⟩

/-- C5 (amended): trailing label-only blocks are never emitted — the
resolver's output on the extended sequence equals its output on the
sequence without them; consequently a trailing label that does not
already occur in an Identity of the shorter output occurs in no Identity
of the returned map. -/
theorem trailing_labels_dropped (bs : List (List Instr)) (ls : List String)
    (_hls : ls ≠ []) :
    labels2blocks (bs ++ ls.map (fun s => [labelInstr s])) = labels2blocks bs ∧
    (∀ l ∈ ls, ∀ res, labels2blocks bs = some res → kcount res l = 0 →
      ∀ res', labels2blocks (bs ++ ls.map (fun s => [labelInstr s])) = some res' →
        kcount res' l = 0) := by
  have heq : labels2blocks (bs ++ ls.map (fun s => [labelInstr s])) = labels2blocks bs :=
    l2bAux_trailing bs [] 0 [] ls
  refine ⟨heq, ?_⟩
  intro l _ res hres h0 res' hres'
  rw [heq, hres] at hres'
  cases hres'
  exact h0

/-- C5 witness: one emitting block `[label B, ret]` followed by the
trailing label-only block `[label A]`; the trailing `A` lands in no
Identity. -/
theorem trailing_labels_dropped_witness :
    labels2blocks ([[labelInstr "B", opInstr "ret"]] ++ ["A"].map (fun s => [labelInstr s]))
        = labels2blocks [[labelInstr "B", opInstr "ret"]] ∧
      kcount [(["B"], [opInstr "ret"])] "A" = 0 := by
  obtain ⟨h1, h2⟩ := trailing_labels_dropped [[labelInstr "B", opInstr "ret"]] ["A"]
    (by decide)
  exact ⟨h1, h2 "A" (by decide) [(["B"], [opInstr "ret"])] (by rfl) (by decide)
    [(["B"], [opInstr "ret"])] (by rw [h1]; rfl)⟩

/-- The label naming a block, read from its first instruction (what
`labels2blocks` inspects). -/
def headLabel (b : List Instr) : Option String :=
  match b with
  | [] => none
  | first :: _ => first.label

/-- Whether a block makes `labels2blocks` emit a map entry: its body
after stripping a leading label is non-empty. -/
def emits (b : List Instr) : Bool :=
  match b with
  | [] => false
  | first :: tl =>
    match first.label with
    | some _ => !tl.isEmpty
    | none => true

section KcountLemmas

/-- Once a label sits in exactly one emitted Identity, later blocks that
neither carry it as their head label nor collide with synthesized names
never add or remove it. -/
theorem l2bAux_kcount_stable (l : String) :
    ∀ (bs : List (List Instr)) (m : List (List String × List Instr)) (idx : Nat)
      (carry : List String),
      kcount m l = 1 → l ∉ carry → (∀ n : Nat, l ≠ "block" ++ toString n) →
      (∀ b ∈ bs, headLabel b ≠ some l) →
      ∀ res, labels2blocksAux m idx carry bs = some res → kcount res l = 1 := by
  intro bs
  induction bs with
  | nil =>
    intro m idx carry h1 _ _ _ res hres
    cases hres; exact h1
  | cons block bs ih =>
    intro m idx carry h1 h2 h3 h4 res hres
    cases block with
    | nil => simp [labels2blocksAux] at hres
    | cons first tl =>
      have hhd : first.label ≠ some l := by
        simpa [headLabel] using h4 (first :: tl) (List.mem_cons_self _ _)
      have h4' : ∀ b ∈ bs, headLabel b ≠ some l :=
        fun b hb => h4 b (List.mem_cons_of_mem _ hb)
      cases hlb : first.label with
      | some l' =>
        have hll' : l ≠ l' := fun hEq => hhd (by rw [hlb, hEq])
        have hkey : l ∉ carry ++ [l'] := by
          intro hmem
          rcases List.mem_append.mp hmem with hm | hm
          · exact h2 hm
          · simp only [List.mem_singleton] at hm; exact hll' hm
        by_cases ht : tl = []
        · simp only [labels2blocksAux, hlb, if_pos ht] at hres
          exact ih m idx (carry ++ [l']) h1 hkey h3 h4' res hres
        · simp only [labels2blocksAux, hlb, if_neg ht] at hres
          refine ih _ idx [] ?_ (by simp) h3 h4' res hres
          rw [kcount_odInsert_not_mem m (carry ++ [l']) tl l hkey]
          exact h1
      | none =>
        simp only [labels2blocksAux, hlb] at hres
        have hkey : l ∉ carry ++ ["block" ++ toString idx] := by
          intro hmem
          rcases List.mem_append.mp hmem with hm | hm
          · exact h2 hm
          · simp only [List.mem_singleton] at hm; exact h3 idx hm
        refine ih _ (idx + 1) [] ?_ (by simp) h3 h4' res hres
        rw [kcount_odInsert_not_mem m _ (first :: tl) l hkey]
        exact h1

/-- A label sitting in the pending carry lands in exactly one Identity
as soon as some later block emits. -/
theorem l2bAux_kcount_carry (l : String) :
    ∀ (bs : List (List Instr)) (m : List (List String × List Instr)) (idx : Nat)
      (carry : List String),
      kcount m l = 0 → l ∈ carry → (∀ n : Nat, l ≠ "block" ++ toString n) →
      (∀ b ∈ bs, headLabel b ≠ some l) →
      (∃ b ∈ bs, emits b = true) →
      ∀ res, labels2blocksAux m idx carry bs = some res → kcount res l = 1 := by
  intro bs
  induction bs with
  | nil =>
    intro m idx carry _ _ _ _ hex res hres
    obtain ⟨b, hb, _⟩ := hex
    simp at hb
  | cons block bs ih =>
    intro m idx carry h0 hc h3 h4 hex res hres
    cases block with
    | nil => simp [labels2blocksAux] at hres
    | cons first tl =>
      have h4' : ∀ b ∈ bs, headLabel b ≠ some l :=
        fun b hb => h4 b (List.mem_cons_of_mem _ hb)
      cases hlb : first.label with
      | some l' =>
        by_cases ht : tl = []
        · simp only [labels2blocksAux, hlb, if_pos ht] at hres
          have hex' : ∃ b ∈ bs, emits b = true := by
            obtain ⟨b, hb, hemit⟩ := hex
            rcases List.mem_cons.mp hb with hb | hb
            · rw [hb] at hemit; simp [emits, hlb, ht] at hemit
            · exact ⟨b, hb, hemit⟩
          exact ih m idx (carry ++ [l']) h0 (List.mem_append_left _ hc) h3 h4' hex' res hres
        · simp only [labels2blocksAux, hlb, if_neg ht] at hres
          have h1 : kcount (odInsert m (carry ++ [l']) tl) l = 1 :=
            kcount_odInsert_mem m _ tl l (List.mem_append_left _ hc) h0
          exact l2bAux_kcount_stable l bs _ idx [] h1 (by simp) h3 h4' res hres
      | none =>
        simp only [labels2blocksAux, hlb] at hres
        have h1 : kcount (odInsert m (carry ++ ["block" ++ toString idx]) (first :: tl)) l = 1 :=
          kcount_odInsert_mem m _ (first :: tl) l (List.mem_append_left _ hc) h0
        exact l2bAux_kcount_stable l bs _ (idx + 1) [] h1 (by simp) h3 h4' res hres

/-- Main per-label lemma: a label heading exactly one block, with an
emitting block at or after it, no colliding synthesized name, and no
prior occurrence, ends up in exactly one Identity. -/
theorem l2bAux_kcount_emit (l : String) :
    ∀ (pre : List (List Instr)) (bl : List Instr) (post : List (List Instr))
      (m : List (List String × List Instr)) (idx : Nat) (carry : List String),
      kcount m l = 0 → l ∉ carry → (∀ n : Nat, l ≠ "block" ++ toString n) →
      (∀ b ∈ pre, headLabel b ≠ some l) → (∀ b ∈ post, headLabel b ≠ some l) →
      headLabel bl = some l →
      (∃ b ∈ bl :: post, emits b = true) →
      ∀ res, labels2blocksAux m idx carry (pre ++ bl :: post) = some res →
        kcount res l = 1 := by
  intro pre
  induction pre with
  | nil =>
    intro bl post m idx carry h0 hc h3 _ h5 hbl hex res hres
    cases bl with
    | nil => simp [headLabel] at hbl
    | cons first tl =>
      have hlb : first.label = some l := by simpa [headLabel] using hbl
      simp only [List.nil_append] at hres
      by_cases ht : tl = []
      · simp only [labels2blocksAux, hlb, if_pos ht] at hres
        have hex' : ∃ b ∈ post, emits b = true := by
          obtain ⟨b, hb, hemit⟩ := hex
          rcases List.mem_cons.mp hb with hb | hb
          · rw [hb] at hemit; simp [emits, hlb, ht] at hemit
          · exact ⟨b, hb, hemit⟩
        exact l2bAux_kcount_carry l post m idx (carry ++ [l]) h0 (by simp) h3 h5 hex' res hres
      · simp only [labels2blocksAux, hlb, if_neg ht] at hres
        have h1 : kcount (odInsert m (carry ++ [l]) tl) l = 1 :=
          kcount_odInsert_mem m _ tl l (by simp) h0
        exact l2bAux_kcount_stable l post _ idx [] h1 (by simp) h3 h5 res hres
  | cons block pre ih =>
    intro bl post m idx carry h0 hc h3 h4 h5 hbl hex res hres
    cases block with
    | nil => simp [labels2blocksAux] at hres
    | cons first tl =>
      have hhd : first.label ≠ some l := by
        simpa [headLabel] using h4 (first :: tl) (List.mem_cons_self _ _)
      have h4' : ∀ b ∈ pre, headLabel b ≠ some l :=
        fun b hb => h4 b (List.mem_cons_of_mem _ hb)
      cases hlb : first.label with
      | some l' =>
        have hll' : l ≠ l' := fun hEq => hhd (by rw [hlb, hEq])
        have hkey : l ∉ carry ++ [l'] := by
          intro hmem
          rcases List.mem_append.mp hmem with hm | hm
          · exact hc hm
          · simp only [List.mem_singleton] at hm; exact hll' hm
        by_cases ht : tl = []
        · simp only [List.cons_append, labels2blocksAux, hlb, if_pos ht] at hres
          exact ih bl post m idx (carry ++ [l']) h0 hkey h3 h4' h5 hbl hex res hres
        · simp only [List.cons_append, labels2blocksAux, hlb, if_neg ht] at hres
          refine ih bl post _ idx [] ?_ (by simp) h3 h4' h5 hbl hex res hres
          rw [kcount_odInsert_not_mem m _ tl l hkey]
          exact h0
      | none =>
        simp only [List.cons_append, labels2blocksAux, hlb] at hres
        have hkey : l ∉ carry ++ ["block" ++ toString idx] := by
          intro hmem
          rcases List.mem_append.mp hmem with hm | hm
          · exact hc hm
          · simp only [List.mem_singleton] at hm; exact h3 idx hm
        refine ih bl post _ (idx + 1) [] ?_ (by simp) h3 h4' h5 hbl hex res hres
        rw [kcount_odInsert_not_mem m _ (first :: tl) l hkey]
        exact h0

/-- On non-empty blocks the resolver never raises. -/
theorem l2bAux_isSome (bs : List (List Instr)) :
    ∀ (m : List (List String × List Instr)) (idx : Nat) (carry : List String),
      (∀ b ∈ bs, b ≠ []) →
      ∃ res, labels2blocksAux m idx carry bs = some res := by
  induction bs with
  | nil => intro m idx carry _; exact ⟨m, rfl⟩
  | cons block bs ih =>
    intro m idx carry hne
    have hbs : ∀ b ∈ bs, b ≠ [] := fun b hb => hne b (List.mem_cons_of_mem _ hb)
    cases block with
    | nil => exact absurd rfl (hne [] (List.mem_cons_self _ _))
    | cons first tl =>
      cases hlb : first.label with
      | some l =>
        by_cases ht : tl = []
        · obtain ⟨res, hres⟩ := ih m idx (carry ++ [l]) hbs
          exact ⟨res, by simp only [labels2blocksAux, hlb, if_pos ht]; exact hres⟩
        · obtain ⟨res, hres⟩ := ih (odInsert m (carry ++ [l]) tl) idx [] hbs
          exact ⟨res, by simp only [labels2blocksAux, hlb, if_neg ht]; exact hres⟩
      | none =>
        obtain ⟨res, hres⟩ :=
          ih (odInsert m (carry ++ ["block" ++ toString idx]) (first :: tl)) (idx + 1) [] hbs
        exact ⟨res, by simp only [labels2blocksAux, hlb]; exact hres⟩

end KcountLemmas

section StreamLemmas

/-- On well-shaped input, instructions past a block's head carry no
label (the partitioner starts a new block at every label). -/
theorem blocks_tail_label_none (instrs : List Instr)
    (h : ∀ i ∈ instrs, shaped i = true) :
    ∀ b ∈ get_basic_blocks instrs, ∀ j ∈ b.drop 1, j.label = none := by
  intro b hb j hj
  have hmem : j ∈ instrs := by
    have hjb : j ∈ b := List.mem_of_mem_drop hj
    have hfl : (get_basic_blocks instrs).flatten = instrs := by
      simpa using gbbAux_flatten instrs [] h
    rw [← hfl]
    exact List.mem_flatten.mpr ⟨b, hb, hjb⟩
  have hsh : shaped j = true := h j hmem
  have hnm : isLabelMarker j = false := (gbbAux_blocks instrs [] (by simp) b hb).2 j hj
  cases hl : j.label with
  | none => rfl
  | some s =>
    cases hop : j.op with
    | some o => simp [shaped, hl, hop] at hsh
    | none => simp [isLabelMarker, hl, hop] at hnm

/-- On well-shaped input, the sequence of block head labels equals the
sequence of label names of the stream. -/
theorem stream_labels_eq (instrs : List Instr)
    (h : ∀ i ∈ instrs, shaped i = true) :
    (get_basic_blocks instrs).flatMap (fun b => (headLabel b).toList)
      = instrs.filterMap Instr.label := by
  have hfl : (get_basic_blocks instrs).flatten = instrs := by
    simpa using gbbAux_flatten instrs [] h
  conv_rhs => rw [← hfl]
  rw [List.filterMap_flatten, List.flatMap_def]
  congr 1
  refine List.map_congr_left ?_
  intro b hb
  cases b with
  | nil => simp [headLabel]
  | cons first tl =>
    have htl : ∀ j ∈ tl, Instr.label j = none := by
      intro j hj
      exact blocks_tail_label_none instrs h _ hb j (by simpa using hj)
    rw [List.filterMap_cons]
    cases hlb : first.label with
    | none => simp [headLabel, hlb, List.filterMap_eq_nil_iff.mpr htl]
    | some s => simp [headLabel, hlb, List.filterMap_eq_nil_iff.mpr htl]

end StreamLemmas

/-- C6 counterexample: in the stream
`[label A, label B, ret, label A, ret]` (the label `A` repeated), the
non-trailing label name `A` occurs in two Identities of the resolver's
output, `(A, B)` and `(A,)`, not exactly one.  The claim as universally
stated over instruction streams is therefore false. -/
theorem label_unique_identity_cex :
    labels2blocks (get_basic_blocks
        [labelInstr "A", labelInstr "B", opInstr "ret", labelInstr "A", opInstr "ret"])
      = some [(["A", "B"], [opInstr "ret"]), (["A"], [opInstr "ret"])] ∧
    kcount [(["A", "B"], [opInstr "ret"]), (["A"], [opInstr "ret"])] "A" = 2 :=
  ⟨rfl, rfl⟩

/-- C6 (amended): for a well-shaped stream with pairwise-distinct label
names, a label that collides with no synthesized `block<N>` name and
heads a block followed (at or after it) by an emitting block — i.e. is
not a trailing label — occurs in exactly one Identity of the resolver's
output. -/
theorem label_unique_identity (instrs : List Instr) (l : String)
    (h1 : ∀ i ∈ instrs, shaped i = true)
    (h2 : (instrs.filterMap Instr.label).Nodup)
    (h3 : ∀ n : Nat, l ≠ "block" ++ toString n)
    (h4 : ∃ pre bl post, get_basic_blocks instrs = pre ++ bl :: post ∧
      headLabel bl = some l ∧ ∃ b ∈ bl :: post, emits b = true) :
    ∃ res, labels2blocks (get_basic_blocks instrs) = some res ∧ kcount res l = 1 := by
  obtain ⟨pre, bl, post, hsplit, hbl, hex⟩ := h4
  have hne : ∀ b ∈ get_basic_blocks instrs, b ≠ [] :=
    fun b hb => (gbbAux_blocks instrs [] (by simp) b hb).1
  obtain ⟨res, hres⟩ := l2bAux_isSome (get_basic_blocks instrs) [] 0 [] hne
  refine ⟨res, hres, ?_⟩
  have hstream := stream_labels_eq instrs h1
  rw [hsplit, List.flatMap_append, List.flatMap_cons, hbl] at hstream
  have hnd : ((pre.flatMap (fun b => (headLabel b).toList)) ++
      l :: (post.flatMap (fun b => (headLabel b).toList))).Nodup := by
    rw [show (l : String) :: post.flatMap (fun b => (headLabel b).toList)
        = (Option.some l).toList ++ post.flatMap (fun b => (headLabel b).toList) from rfl]
    rw [hstream]
    exact h2
  have hlpre : l ∉ pre.flatMap (fun b => (headLabel b).toList) := by
    intro hmem
    obtain ⟨_, _, hdisj⟩ := List.nodup_append.mp hnd
    exact hdisj hmem (List.mem_cons_self _ _)
  have hlpost : l ∉ post.flatMap (fun b => (headLabel b).toList) := by
    obtain ⟨_, hnd2, _⟩ := List.nodup_append.mp hnd
    exact (List.nodup_cons.mp hnd2).1
  have hpre : ∀ b ∈ pre, headLabel b ≠ some l := by
    intro b hb hEq
    exact hlpre (List.mem_flatMap.mpr ⟨b, hb, by simp [hEq]⟩)
  have hpost : ∀ b ∈ post, headLabel b ≠ some l := by
    intro b hb hEq
    exact hlpost (List.mem_flatMap.mpr ⟨b, hb, by simp [hEq]⟩)
  rw [hsplit] at hres
  exact l2bAux_kcount_emit l pre bl post [] 0 [] rfl (by simp) h3 hpre hpost hbl hex res hres

/-- Labels shorter than `"block"` never collide with a synthesized
`block<N>` name. -/
theorem short_ne_synth (l : String) (hlen : l.length < 5) :
    ∀ n : Nat, l ≠ "block" ++ toString n := by
  intro n hEq
  have hcong := congrArg String.length hEq
  rw [String.length_append] at hcong
  have h5 : ("block" : String).length = 5 := rfl
  omega

/-- C6 witness: the stream `[label A, ret]`, whose only label `A` heads
the single (emitting) block. -/
theorem label_unique_identity_witness :
    ∃ res, labels2blocks (get_basic_blocks [labelInstr "A", opInstr "ret"]) = some res ∧
      kcount res "A" = 1 :=
  label_unique_identity [labelInstr "A", opInstr "ret"] "A" (by decide) (by decide)
    (short_ne_synth "A" (by decide))
    ⟨[], [labelInstr "A", opInstr "ret"], [], rfl, rfl,
      ⟨[labelInstr "A", opInstr "ret"], by decide, by decide⟩⟩

end Mycfg
